import Mathlib

/-!
Shallow embedding of the telepredict sports-prediction core
(`sports_prediction/prediction_engine/odds_analyzer.py`,
`sports_prediction/prediction_engine/predictor.py`,
`sports_prediction/ml_models/ensemble.py`,
`sports_prediction/ml_models/meta_learner.py`) together with proofs
about the odds-value engine, the confidence scorer, the recommendation
blender and the meta-learner weight registry.  Real-number arithmetic of
the source is modelled over `ℚ`.
-/

namespace TelePredict

/-! ### Generic numeric helpers (numpy mean / var, python max) -/

/-- `np.mean` over a list of rationals (0 on the empty list, as 0/0 = 0). -/
def qmean (xs : List ℚ) : ℚ := xs.sum / (xs.length : ℚ)

/-- `np.var` (population variance, ddof = 0): mean squared deviation. -/
def qvar (xs : List ℚ) : ℚ := qmean (xs.map (fun x => (x - qmean xs) ^ 2))

/-- Python `max` over a nonempty list of rationals (0 for the empty list,
which the sources guard against). -/
def maxList : List ℚ → ℚ
  | [] => 0
  | x :: xs => xs.foldl max x

theorem foldl_max_le {xs : List ℚ} {a c : ℚ} (ha : a ≤ c)
    (h : ∀ x ∈ xs, x ≤ c) : xs.foldl max a ≤ c := by
  induction xs generalizing a with
  | nil => simpa using ha
  | cons y ys ih =>
    simp only [List.foldl_cons]
    exact ih (max_le ha (h y (by simp))) (fun x hx => h x (by simp [hx]))

theorem le_foldl_max {xs : List ℚ} (a : ℚ) : a ≤ xs.foldl max a := by
  induction xs generalizing a with
  | nil => simp
  | cons y ys ih => exact le_trans (le_max_left a y) (ih (max a y))

theorem maxList_mem_bounds {xs : List ℚ} (hne : xs ≠ [])
    (h : ∀ x ∈ xs, 0 ≤ x ∧ x ≤ 1) : 0 ≤ maxList xs ∧ maxList xs ≤ 1 := by
  cases xs with
  | nil => exact absurd rfl hne
  | cons y ys =>
    constructor
    · exact le_trans (h y (by simp)).1 (le_foldl_max y)
    · exact foldl_max_le (h y (by simp)).2 (fun x hx => (h x (by simp [hx])).2)

theorem qmean_nonneg {xs : List ℚ} (h : ∀ x ∈ xs, 0 ≤ x) : 0 ≤ qmean xs := by
  unfold qmean
  apply div_nonneg
  · exact List.sum_nonneg h
  · exact_mod_cast Nat.zero_le _

theorem qvar_nonneg (xs : List ℚ) : 0 ≤ qvar xs := by
  unfold qvar
  apply qmean_nonneg
  intro x hx
  rcases List.mem_map.mp hx with ⟨y, _, rfl⟩
  positivity

/-! ### Stable descending insertion sort (python `sorted(..., reverse=True)`) -/

/-- Insert `x` into a descending-sorted list, after all entries whose key is
at least `key x` (this is what makes the sort stable). -/
def insertDesc (key : α → ℚ) (x : α) : List α → List α
  | [] => [x]
  | y :: ys => if key y ≤ key x then x :: y :: ys else y :: insertDesc key x ys

/-- Stable sort in descending order of `key`, the behaviour of python
`sorted(l, key=key, reverse=True)`. -/
def sortByDesc (key : α → ℚ) : List α → List α
  | [] => []
  | x :: xs => insertDesc key x (sortByDesc key xs)

theorem mem_insertDesc (key : α → ℚ) (x : α) (l : List α) (a : α) :
    a ∈ insertDesc key x l ↔ a = x ∨ a ∈ l := by
  induction l with
  | nil => simp [insertDesc]
  | cons y ys ih =>
    unfold insertDesc
    by_cases h : key y ≤ key x
    · simp [h]
    · simp only [h, if_false, List.mem_cons, ih]
      tauto

theorem mem_sortByDesc (key : α → ℚ) (l : List α) (a : α) :
    a ∈ sortByDesc key l ↔ a ∈ l := by
  induction l with
  | nil => simp [sortByDesc]
  | cons x xs ih => simp [sortByDesc, mem_insertDesc, ih]

theorem pairwise_insertDesc (key : α → ℚ) (x : α) (l : List α)
    (h : l.Pairwise (fun a b => key b ≤ key a)) :
    (insertDesc key x l).Pairwise (fun a b => key b ≤ key a) := by
  induction l with
  | nil => simp [insertDesc]
  | cons y ys ih =>
    rcases List.pairwise_cons.mp h with ⟨hy, hys⟩
    unfold insertDesc
    by_cases hk : key y ≤ key x
    · rw [if_pos hk]
      refine List.pairwise_cons.mpr ⟨?_, h⟩
      intro b hb
      rcases List.mem_cons.mp hb with rfl | hb
      · exact hk
      · exact le_trans (hy b hb) hk
    · rw [if_neg hk]
      refine List.pairwise_cons.mpr ⟨?_, ih hys⟩
      intro b hb
      rcases (mem_insertDesc key x ys b).mp hb with rfl | hb
      · exact le_of_lt (lt_of_not_le hk)
      · exact hy b hb

theorem pairwise_sortByDesc (key : α → ℚ) (l : List α) :
    (sortByDesc key l).Pairwise (fun a b => key b ≤ key a) := by
  induction l with
  | nil => simp [sortByDesc]
  | cons x xs ih => exact pairwise_insertDesc key x _ ih

/-! ### Python `max(seq, key=...)`: first element with the maximal key -/

/-- Step function of python `max` with a key: replace the candidate only on a
strictly larger key, so the first maximal element wins. -/
def bestStep (key : α → ℚ) (best y : α) : α := if key best < key y then y else best

/-- Python `max(l, key=key)` on a nonempty list, `none` on the empty list
(the sources only call it on nonempty lists). -/
def bestBy (key : α → ℚ) : List α → Option α
  | [] => none
  | x :: xs => some (xs.foldl (bestStep key) x)

theorem key_le_foldl_bestStep (key : α → ℚ) (l : List α) (a : α) :
    key a ≤ key (l.foldl (bestStep key) a) := by
  induction l generalizing a with
  | nil => simp
  | cons y ys ih =>
    refine le_trans ?_ (ih (bestStep key a y))
    unfold bestStep
    by_cases h : key a < key y
    · rw [if_pos h]; exact le_of_lt h
    · rw [if_neg h]

theorem foldl_bestStep_mem (key : α → ℚ) (l : List α) (a : α) :
    l.foldl (bestStep key) a = a ∨ l.foldl (bestStep key) a ∈ l := by
  induction l generalizing a with
  | nil => simp
  | cons y ys ih =>
    simp only [List.foldl_cons]
    rcases ih (bestStep key a y) with h | h
    · rw [h]
      unfold bestStep
      by_cases hk : key a < key y
      · rw [if_pos hk]; right; simp
      · rw [if_neg hk]; left; rfl
    · right; exact List.mem_cons_of_mem y h

theorem key_le_foldl_bestStep_of_mem (key : α → ℚ) (l : List α) :
    ∀ a r, r ∈ l → key r ≤ key (l.foldl (bestStep key) a) := by
  induction l with
  | nil => intro a r hr; simp at hr
  | cons y ys ih =>
    intro a r hr
    simp only [List.foldl_cons]
    rcases List.mem_cons.mp hr with rfl | hr
    · refine le_trans ?_ (key_le_foldl_bestStep key ys (bestStep key a r))
      unfold bestStep
      by_cases hk : key a < key r
      · rw [if_pos hk]
      · rw [if_neg hk]; exact le_of_not_lt hk
    · exact ih (bestStep key a y) r hr

/-- `bestBy` returns an element of the list whose key is maximal. -/
theorem bestBy_spec (key : α → ℚ) (l : List α) (x : α)
    (h : bestBy key l = some x) : x ∈ l ∧ ∀ r ∈ l, key r ≤ key x := by
  cases l with
  | nil => simp [bestBy] at h
  | cons a as =>
    simp only [bestBy, Option.some.injEq] at h
    subst h
    refine ⟨?_, ?_⟩
    · rcases foldl_bestStep_mem key as a with h | h
      · rw [h]; simp
      · simp [h]
    · intro r hr
      rcases List.mem_cons.mp hr with rfl | hr
      · exact key_le_foldl_bestStep key as r
      · exact key_le_foldl_bestStep_of_mem key as a r hr

theorem bestBy_eq_none_iff (key : α → ℚ) (l : List α) :
    bestBy key l = none ↔ l = [] := by
  cases l <;> simp [bestBy]

/-! ### Odds analyzer data model (`odds_analyzer.py`)

An `OddsSummary` is the output of `OddsAnalyzer._extract_odds_summary`:
per-market, per-outcome lists of quotes with the quoting bookmaker.
-/

/-- One h2h quote of one bookmaker. -/
structure Quote where
  odds : ℚ
  bookmaker : String
deriving DecidableEq

/-- One spreads quote of one bookmaker. -/
structure SpreadQuote where
  odds : ℚ
  spread : ℚ
  bookmaker : String
deriving DecidableEq

/-- One totals quote of one bookmaker. -/
structure TotalsQuote where
  odds : ℚ
  total : ℚ
  bookmaker : String
deriving DecidableEq

/-- The `'h2h'` section of the odds summary. -/
structure H2HOdds where
  home : List Quote
  away : List Quote
  draw : List Quote
deriving DecidableEq

/-- The `'spreads'` section of the odds summary. -/
structure SpreadsOdds where
  home : List SpreadQuote
  away : List SpreadQuote
deriving DecidableEq

/-- The `'totals'` section of the odds summary. -/
structure TotalsOdds where
  over : List TotalsQuote
  under : List TotalsQuote
deriving DecidableEq

/-- Output of `_extract_odds_summary`. -/
structure OddsSummary where
  h2h : H2HOdds
  spreads : SpreadsOdds
  totals : TotalsOdds
  bookmakers : List String
deriving DecidableEq

/-- The `'h2h'` entry of `_calculate_implied_probabilities`' result. -/
structure ImpliedH2H where
  home : ℚ
  away : ℚ
  draw : ℚ
deriving DecidableEq

/-- The `'spreads'` entry of `_calculate_implied_probabilities`' result. -/
structure ImpliedSpreads where
  home : ℚ
  away : ℚ
deriving DecidableEq

/-- Raw h2h implied probabilities before normalization:
`np.mean([1/odds ...]) if odds else 0` per outcome. -/
def rawImpliedH2H (h : H2HOdds) : ImpliedH2H where
  home := if h.home = [] then 0 else qmean (h.home.map (fun q => 1 / q.odds))
  away := if h.away = [] then 0 else qmean (h.away.map (fun q => 1 / q.odds))
  draw := if h.draw = [] then 0 else qmean (h.draw.map (fun q => 1 / q.odds))

/-- The h2h part of `_calculate_implied_probabilities`: the per-outcome mean
inverse odds, then (when the total is positive) each entry divided by the
total so the three sum to 1. -/
def impliedH2H (h : H2HOdds) : ImpliedH2H :=
  let raw := rawImpliedH2H h
  let total := raw.home + raw.away + raw.draw
  if 0 < total then ⟨raw.home / total, raw.away / total, raw.draw / total⟩
  else raw

/-- The spreads part of `_calculate_implied_probabilities` (no
normalization in the source). -/
def impliedSpreads (s : SpreadsOdds) : ImpliedSpreads where
  home := if s.home = [] then 0 else qmean (s.home.map (fun q => 1 / q.odds))
  away := if s.away = [] then 0 else qmean (s.away.map (fun q => 1 / q.odds))

/-- `OddsAnalyzer._calculate_kelly_stake`: with `b = odds - 1`,
`p = probability`, `q = 1 - p`, the Kelly fraction `(b * p - q) / b`
capped as `max(0, min(kelly_fraction, 0.25))`. -/
def kellyStake (probability odds : ℚ) : ℚ :=
  if odds ≤ 1 ∨ probability ≤ 0 then 0
  else max 0 (min (((odds - 1) * probability - (1 - probability)) / (odds - 1)) (1 / 4))

/-! ### Value bets (`_identify_value_bets`) -/

/-- One entry of the returned value-bet list. -/
structure ValueBet where
  market : String
  outcome : String
  model_probability : ℚ
  market_probability : ℚ
  best_odds : ℚ
  bookmaker : String
  expected_value : ℚ
  value_percentage : ℚ
  recommended_stake : ℚ
deriving DecidableEq

/-- A model probability assignment over the three h2h outcomes. -/
structure ModelProbs where
  home : ℚ
  draw : ℚ
  away : ℚ
deriving DecidableEq

/-- The fallback used by `_identify_value_bets` when `model_probabilities`
is `None` — which is how `analyze_match_odds` always calls it. -/
def defaultModelProbs : ModelProbs := ⟨45/100, 25/100, 30/100⟩

/-- The body of `_identify_value_bets`' loop for one outcome: surface the
outcome when the model probability beats the market probability, the
outcome has at least one quote, and the expected value at the best
(highest) quoted odds exceeds `min_value_threshold = 0.05`. -/
def candidateValueBet (quotes : List Quote) (outcomeName : String)
    (modelProb marketProb : ℚ) : Option ValueBet :=
  if marketProb < modelProb then
    match bestBy (fun q => q.odds) quotes with
    | none => none
    | some best =>
      if 1/20 < modelProb * best.odds - 1 then
        some { market := "h2h", outcome := outcomeName,
               model_probability := modelProb, market_probability := marketProb,
               best_odds := best.odds, bookmaker := best.bookmaker,
               expected_value := modelProb * best.odds - 1,
               value_percentage := (modelProb * best.odds - 1) * 100,
               recommended_stake := kellyStake modelProb best.odds }
      else none
  else none

/-- `OddsAnalyzer._identify_value_bets`: the loop over
`['home', 'away', 'draw']` followed by
`sorted(value_bets, key=lambda x: x['expected_value'], reverse=True)`. -/
def identifyValueBets (os : OddsSummary) (implied : ImpliedH2H)
    (model : ModelProbs) : List ValueBet :=
  sortByDesc (fun b => b.expected_value) (List.filterMap id
    [candidateValueBet os.h2h.home "home" model.home implied.home,
     candidateValueBet os.h2h.away "away" model.away implied.away,
     candidateValueBet os.h2h.draw "draw" model.draw implied.draw])

/-- The value-bet part of `analyze_match_odds`: the call at line 39 of
`odds_analyzer.py` passes no `model_probabilities`, so the hardcoded
default distribution is used for every match. -/
def analyzeMatchOddsValueBets (os : OddsSummary) : List ValueBet :=
  identifyValueBets os (impliedH2H os.h2h) defaultModelProbs

/-! ### Arbitrage (`_find_arbitrage_opportunities`) -/

/-- One leg of an arbitrage opportunity; the `spread` field is present only
for spreads legs. -/
structure ArbLeg where
  outcome : String
  odds : ℚ
  bookmaker : String
  stake_percentage : ℚ
  spread : Option ℚ
deriving DecidableEq

/-- One reported arbitrage opportunity. -/
structure ArbOpp where
  market : String
  profit_margin : ℚ
  bets : List ArbLeg
deriving DecidableEq

/-- The h2h block of `_find_arbitrage_opportunities`: requires a quote for
each of home, away and draw, and reports iff the inverse-odds sum at the
best odds is strictly below 1. -/
def h2hArbOpps (os : OddsSummary) : List ArbOpp :=
  match bestBy (fun q => q.odds) os.h2h.home,
        bestBy (fun q => q.odds) os.h2h.away,
        bestBy (fun q => q.odds) os.h2h.draw with
  | some bh, some ba, some bd =>
    if 1 / bh.odds + 1 / ba.odds + 1 / bd.odds < 1 then
      [{ market := "h2h",
         profit_margin := (1 - (1 / bh.odds + 1 / ba.odds + 1 / bd.odds)) * 100,
         bets := [⟨"home", bh.odds, bh.bookmaker,
                    1 / bh.odds / (1 / bh.odds + 1 / ba.odds + 1 / bd.odds) * 100, none⟩,
                  ⟨"away", ba.odds, ba.bookmaker,
                    1 / ba.odds / (1 / bh.odds + 1 / ba.odds + 1 / bd.odds) * 100, none⟩,
                  ⟨"draw", bd.odds, bd.bookmaker,
                    1 / bd.odds / (1 / bh.odds + 1 / ba.odds + 1 / bd.odds) * 100, none⟩] }]
    else []
  | _, _, _ => []

/-- The spreads block of `_find_arbitrage_opportunities` (two outcomes). -/
def spreadsArbOpps (os : OddsSummary) : List ArbOpp :=
  match bestBy (fun q => q.odds) os.spreads.home,
        bestBy (fun q => q.odds) os.spreads.away with
  | some bh, some ba =>
    if 1 / bh.odds + 1 / ba.odds < 1 then
      [{ market := "spreads",
         profit_margin := (1 - (1 / bh.odds + 1 / ba.odds)) * 100,
         bets := [⟨"home_spread", bh.odds, bh.bookmaker,
                    1 / bh.odds / (1 / bh.odds + 1 / ba.odds) * 100, some bh.spread⟩,
                  ⟨"away_spread", ba.odds, ba.bookmaker,
                    1 / ba.odds / (1 / bh.odds + 1 / ba.odds) * 100, some ba.spread⟩] }]
    else []
  | _, _ => []

/-- `OddsAnalyzer._find_arbitrage_opportunities`: the h2h block, the spreads
block (the totals market is never examined), then
`sorted(..., key=lambda x: x['profit_margin'], reverse=True)`. -/
def findArbitrageOpportunities (os : OddsSummary) : List ArbOpp :=
  sortByDesc (fun o => o.profit_margin) (h2hArbOpps os ++ spreadsArbOpps os)

/-- The h2h inverse-odds sum at the best quotes, defined exactly when every
h2h outcome has at least one quote. -/
def h2hInvSum (os : OddsSummary) : Option ℚ :=
  match bestBy (fun q => q.odds) os.h2h.home,
        bestBy (fun q => q.odds) os.h2h.away,
        bestBy (fun q => q.odds) os.h2h.draw with
  | some bh, some ba, some bd => some (1 / bh.odds + 1 / ba.odds + 1 / bd.odds)
  | _, _, _ => none

/-- The spreads inverse-odds sum at the best quotes, defined exactly when
both spreads outcomes have at least one quote. -/
def spreadsInvSum (os : OddsSummary) : Option ℚ :=
  match bestBy (fun q => q.odds) os.spreads.home,
        bestBy (fun q => q.odds) os.spreads.away with
  | some bh, some ba => some (1 / bh.odds + 1 / ba.odds)
  | _, _ => none

/-! ### Market efficiency (`_calculate_market_efficiency`) -/

/-- One market's entry in the efficiency metrics. -/
structure MarketEff where
  total_probability : ℚ
  overround : ℚ
  efficiency : ℚ
  margin_percentage : ℚ
deriving DecidableEq

/-- The h2h block of `_calculate_market_efficiency`, applied to whatever
h2h probabilities it is handed. -/
def marketEffH2H (p : ImpliedH2H) : MarketEff :=
  let total := p.home + p.away + p.draw
  { total_probability := total, overround := total - 1,
    efficiency := if 0 < total then 1 / total else 0,
    margin_percentage := (total - 1) * 100 }

/-- The spreads block of `_calculate_market_efficiency`. -/
def marketEffSpreads (p : ImpliedSpreads) : MarketEff :=
  let total := p.home + p.away
  { total_probability := total, overround := total - 1,
    efficiency := if 0 < total then 1 / total else 0,
    margin_percentage := (total - 1) * 100 }

/-- The h2h market-efficiency record produced inside `analyze_match_odds`:
`_calculate_market_efficiency` receives the *renormalized* implied
probabilities computed at line 36. -/
def analyzeMatchOddsMarketEffH2H (os : OddsSummary) : MarketEff :=
  marketEffH2H (impliedH2H os.h2h)

/-! ### Ensemble confidence (`ensemble.py`, `_calculate_confidence`) -/

/-- The `avg_variance` local of `_calculate_confidence`: per-class
(population) variance across the valid rows
(`np.var(prob_array, axis=0)`), averaged over the classes
(`np.mean(variance)`); the column count of the `np.array` is the common
row length, written here as the length of the first row. -/
def avgVariance (valid : List (List ℚ)) : ℚ :=
  qmean ((List.range (valid.headD []).length).map
    (fun j => qvar (valid.map (fun r => r.getD j 0))))

/-- `EnsemblePredictor._calculate_confidence`.  `individual` is the list of
per-model probability rows (a `none` models a python `None` entry, which the
source filters out); `ensemble` is the ensemble distribution. -/
def calcConfidence (individual : List (Option (List ℚ))) (ensemble : List ℚ) : ℚ :=
  if ensemble = [] then 0
  else if 1 < (individual.filterMap id).length then
    min (maxList ensemble * (1 / (1 + avgVariance (individual.filterMap id)))) 1
  else min (maxList ensemble) 1

/-! ### Recommendation blender (`predictor.py`,
`_generate_final_recommendation`) -/

/-- A probability vector over `['home_win', 'draw', 'away_win']`. -/
structure FinalProbs where
  home_win : ℚ
  draw : ℚ
  away_win : ℚ
deriving DecidableEq

/-- The probability computation of `_generate_final_recommendation`:
scale the ML distribution by the 0.6 weight, add 0.05 to the home (resp.
away) entry when the home (resp. away) advantage signal exceeds 0.6 (the
home branch shadows the away branch), then renormalize. -/
def generateFinalProbs (mlProbs : FinalProbs)
    (homeAdvantage awayAdvantage : ℚ) : FinalProbs :=
  let p0 := mlProbs.home_win * (6/10)
  let p1 := mlProbs.draw * (6/10)
  let p2 := mlProbs.away_win * (6/10)
  let q0 := if 6/10 < homeAdvantage then p0 + 1/20 else p0
  let q2 := if 6/10 < homeAdvantage then p2
            else if 6/10 < awayAdvantage then p2 + 1/20 else p2
  let s := q0 + p1 + q2
  ⟨q0 / s, p1 / s, q2 / s⟩

/-! ### Meta-learner (`meta_learner.py`) -/

/-- A registered base model, as seen by `_generate_base_predictions` for a
single prediction request: its name, trained flag, `predict_proba` row and
`predict` output on the request's features. -/
structure BaseModel where
  name : String
  isTrained : Bool
  probaRow : List ℚ
  classPred : ℚ

/-- The meta-learner state: `is_trained`, `base_models`, `model_weights`,
the `model_metadata['model_weights']` copy, and the composition of the
fitted scaler with the fitted meta-model (opaque learned parameters,
represented as a function on the stacked feature row). -/
structure MetaLearner where
  isTrained : Bool
  baseModels : List BaseModel
  modelWeights : List (String × ℚ)
  metadataWeights : List (String × ℚ)
  metaModel : List ℚ → List ℚ

/-- Ordered-dictionary lookup. -/
def lookupW : List (String × ℚ) → String → Option ℚ
  | [], _ => none
  | p :: ps, n => if p.1 = n then some p.2 else lookupW ps n

/-- The feature columns one trained base model adds to `predictions_dict`:
`f"{name}_class_{i}_proba"` for each class plus `f"{name}_class_pred"`. -/
def modelFeatureColumns (m : BaseModel) : List (String × ℚ) :=
  (m.probaRow.enum.map
    (fun p => (m.name ++ "_class_" ++ toString p.1 ++ "_proba", p.2)))
  ++ [(m.name ++ "_class_pred", m.classPred)]

/-- One iteration of `_generate_base_predictions`' loop: an untrained model
is skipped; a trained model appends its columns and then every key of the
accumulated dict starting with the model's name is multiplied by the
model's weight (default 1.0). -/
def applyWeightStep (weights : List (String × ℚ))
    (acc : List (String × ℚ)) (m : BaseModel) : List (String × ℚ) :=
  if m.isTrained then
    let acc2 := acc ++ modelFeatureColumns m
    let w := (lookupW weights m.name).getD 1
    acc2.map (fun kv => if m.name.isPrefixOf kv.1 then (kv.1, kv.2 * w) else kv)
  else acc

/-- `MetaLearner._generate_base_predictions` for one prediction request:
the resulting stacked-feature record as an ordered dict. -/
def generateBasePredictions (L : MetaLearner) : List (String × ℚ) :=
  L.baseModels.foldl (applyWeightStep L.modelWeights) []

/-- The error outcomes of `predict_proba`, following the spec's taxonomy:
`notTrained` is the `"Meta-learner must be trained"` `ValueError`,
`dataError` the `"No valid predictions from base models"` `ValueError`. -/
inductive PredictionError where
  | notTrained
  | dataError
deriving DecidableEq

/-- `MetaLearner.predict_proba` for one prediction request. -/
def predictProba (L : MetaLearner) : Except PredictionError (List ℚ) :=
  if L.isTrained = false then Except.error PredictionError.notTrained
  else if generateBasePredictions L = [] then Except.error PredictionError.dataError
  else Except.ok (L.metaModel ((generateBasePredictions L).map Prod.snd))

/-- `MetaLearner.update_weights`: for each requested name in order, replace
its weight only when the name is already a key of `model_weights`; then
copy the registry into `model_metadata['model_weights']`. -/
def updateWeightsList (w : List (String × ℚ)) :
    List (String × ℚ) → List (String × ℚ)
  | [] => w
  | kv :: rest =>
    updateWeightsList
      (if (lookupW w kv.1).isSome then
        w.map (fun p => if p.1 = kv.1 then (p.1, kv.2) else p)
      else w) rest

/-- `MetaLearner.update_weights` acting on the whole state. -/
def updateWeights (L : MetaLearner) (new : List (String × ℚ)) : MetaLearner :=
  let w := updateWeightsList L.modelWeights new
  { L with modelWeights := w, metadataWeights := w }

/-! ## Claim theorems -/

/-- Claim C3: for all inputs `p` and `price`, the Kelly stake computation
returns 0 when `price ≤ 1` or `p ≤ 0`, and otherwise returns
`(b * p - q) / b` with `b = price - 1`, `q = 1 - p`, clamped into the
interval `[0, 0.25]`. -/
theorem kellyStake_piecewise (p price : ℚ) :
    (price ≤ 1 ∨ p ≤ 0 → kellyStake p price = 0) ∧
    (1 < price → 0 < p →
      kellyStake p price =
        max 0 (min (((price - 1) * p - (1 - p)) / (price - 1)) (1 / 4))) := by
  constructor
  · intro h
    unfold kellyStake
    rw [if_pos h]
  · intro h1 h2
    unfold kellyStake
    rw [if_neg (by push_neg; exact ⟨h1, h2⟩)]

/-- Witness for C3: at `p = 1/2`, `price = 5/2` the stake is the uncapped
Kelly fraction `1/6`; at `price = 1/2 ≤ 1` the stake is 0. -/
theorem kellyStake_piecewise_witness :
    kellyStake (1/2) (5/2) = 1/6 ∧ kellyStake (1/2) (1/2) = 0 := by
  constructor
  · have h := (kellyStake_piecewise (1/2) (5/2)).2 (by norm_num) (by norm_num)
    rw [h]
    norm_num [min_def, max_def]
  · exact (kellyStake_piecewise (1/2) (1/2)).1 (Or.inl (by norm_num))

/-- Claim C7: for fixed `price > 1` the Kelly stake is monotonically
non-decreasing in the probability, and for all inputs the returned value
lies in `[0, 0.25]`. -/
theorem kellyStake_monotone_bounded (p1 p2 price : ℚ)
    (hprice : 1 < price) (h12 : p1 ≤ p2) :
    kellyStake p1 price ≤ kellyStake p2 price ∧
    ∀ p odds : ℚ, 0 ≤ kellyStake p odds ∧ kellyStake p odds ≤ 1/4 := by
  have bounds : ∀ p odds : ℚ, 0 ≤ kellyStake p odds ∧ kellyStake p odds ≤ 1/4 := by
    intro p odds
    unfold kellyStake
    by_cases h : odds ≤ 1 ∨ p ≤ 0
    · rw [if_pos h]; norm_num
    · rw [if_neg h]
      exact ⟨le_max_left 0 _, max_le (by norm_num) (min_le_right _ _)⟩
  refine ⟨?_, bounds⟩
  by_cases h1 : p1 ≤ 0
  · have hz : kellyStake p1 price = 0 := by
      unfold kellyStake; rw [if_pos (Or.inr h1)]
    rw [hz]
    exact (bounds p2 price).1
  · push_neg at h1
    have h2 : 0 < p2 := lt_of_lt_of_le h1 h12
    have hb : (0:ℚ) < price - 1 := by linarith
    unfold kellyStake
    rw [if_neg (by push_neg; exact ⟨hprice, h1⟩),
        if_neg (by push_neg; exact ⟨hprice, h2⟩)]
    have hnum : (price - 1) * p1 - (1 - p1) ≤ (price - 1) * p2 - (1 - p2) := by
      nlinarith [mul_nonneg (le_of_lt hb) (sub_nonneg.mpr h12)]
    have hdiv : ((price - 1) * p1 - (1 - p1)) / (price - 1) ≤
        ((price - 1) * p2 - (1 - p2)) / (price - 1) :=
      (div_le_div_iff_of_pos_right hb).mpr hnum
    exact max_le_max le_rfl (min_le_min hdiv le_rfl)

/-- Witness for C7: monotonicity at `p1 = 1/4 ≤ p2 = 1/2`, `price = 2`,
and nonnegativity at `p = 1/3`, `odds = 3`. -/
theorem kellyStake_monotone_bounded_witness :
    kellyStake (1/4) 2 ≤ kellyStake (1/2) 2 ∧ 0 ≤ kellyStake (1/3) 3 := by
  have h := kellyStake_monotone_bounded (1/4) (1/2) 2 (by norm_num) (by norm_num)
  exact ⟨h.1, (h.2 (1/3) 3).1⟩

/-- Claim C8: with ML probabilities `[0.7, 0.1, 0.2]` and neither advantage
signal above 0.6, the blender's final distribution equals the input: the
0.6 scaling followed by renormalization is the identity. -/
theorem blender_identity (homeAdvantage awayAdvantage : ℚ)
    (h1 : homeAdvantage ≤ 6/10) (h2 : awayAdvantage ≤ 6/10) :
    generateFinalProbs ⟨7/10, 1/10, 2/10⟩ homeAdvantage awayAdvantage
      = ⟨7/10, 1/10, 2/10⟩ := by
  simp only [generateFinalProbs]
  rw [if_neg (not_lt.mpr h1), if_neg (not_lt.mpr h1), if_neg (not_lt.mpr h2)]
  simp only [FinalProbs.mk.injEq]
  norm_num

/-- Witness for C8: both advantage signals 0. -/
theorem blender_identity_witness :
    generateFinalProbs ⟨7/10, 1/10, 2/10⟩ 0 0 = ⟨7/10, 1/10, 2/10⟩ :=
  blender_identity 0 0 (by norm_num) (by norm_num)

/-- Quotes home 1.5 / away 1.5 (no draw): the bookmaker margin is
`2/3 + 2/3 - 1 = 1/3`. -/
def overroundExampleOdds : OddsSummary :=
  { h2h := ⟨[⟨3/2, "bk1"⟩], [⟨3/2, "bk1"⟩], []⟩,
    spreads := ⟨[], []⟩, totals := ⟨[], []⟩, bookmakers := ["bk1"] }

/-- Claim C4 (refuting evaluation): on h2h quotes whose raw inverse prices
sum to `4/3` (bookmaker margin `1/3 > 0`), the pipeline's h2h market
efficiency reports overround 0, because `analyze_match_odds` hands the
*renormalized* implied probabilities to `_calculate_market_efficiency`;
the raw inverse-odds sum is not retained. -/
theorem overround_zero_after_renormalization :
    ((rawImpliedH2H overroundExampleOdds.h2h).home +
     (rawImpliedH2H overroundExampleOdds.h2h).away +
     (rawImpliedH2H overroundExampleOdds.h2h).draw) - 1 = 1/3 ∧
    (analyzeMatchOddsMarketEffH2H overroundExampleOdds).overround = 0 ∧
    (analyzeMatchOddsMarketEffH2H overroundExampleOdds).margin_percentage = 0 := by
  refine ⟨?_, ?_, ?_⟩ <;>
    norm_num [rawImpliedH2H, overroundExampleOdds, qmean,
      analyzeMatchOddsMarketEffH2H, marketEffH2H, impliedH2H]

/-- A match whose three h2h outcomes are all quoted at odds 3 by one
bookmaker. -/
def fixedQuotesMatch : OddsSummary :=
  { h2h := ⟨[⟨3, "bk1"⟩], [⟨3, "bk1"⟩], [⟨3, "bk1"⟩]⟩,
    spreads := ⟨[], []⟩, totals := ⟨[], []⟩, bookmakers := ["bk1"] }

/-- Claim C1 (refuting evaluation): the full odds analysis takes no model
distribution at all — `analyze_match_odds` calls `_identify_value_bets`
without `model_probabilities`, so every match is scored against the
hardcoded default `{home: 0.45, draw: 0.25, away: 0.30}`; here the single
surfaced value bet carries `model_probability = 0.45`, whatever the
Meta-Learner predicted for the match. -/
theorem valueBets_use_hardcoded_defaults :
    (analyzeMatchOddsValueBets fixedQuotesMatch).map (fun b => b.model_probability)
      = [45/100] ∧
    (analyzeMatchOddsValueBets fixedQuotesMatch).map (fun b => b.outcome)
      = ["home"] ∧
    defaultModelProbs = ⟨45/100, 25/100, 30/100⟩ := by
  refine ⟨?_, ?_, rfl⟩ <;>
    norm_num [analyzeMatchOddsValueBets, identifyValueBets, candidateValueBet,
      defaultModelProbs, impliedH2H, rawImpliedH2H, qmean, fixedQuotesMatch,
      bestBy, bestStep, sortByDesc, insertDesc, kellyStake]

/-- Claim C6: the confidence score equals the peak of the (nonempty)
ensemble distribution when fewer than 2 individual distributions are
available, and otherwise equals
`min(peak * 1 / (1 + avg_variance), 1.0)`; in all cases the result lies
in `[0, 1]`. -/
theorem calcConfidence_spec (individual : List (Option (List ℚ)))
    (ensemble : List ℚ) (hne : ensemble ≠ [])
    (hb : ∀ x ∈ ensemble, 0 ≤ x ∧ x ≤ 1) :
    ((individual.filterMap id).length < 2 →
      calcConfidence individual ensemble = maxList ensemble) ∧
    (2 ≤ (individual.filterMap id).length →
      calcConfidence individual ensemble =
        min (maxList ensemble * (1 / (1 + avgVariance (individual.filterMap id)))) 1) ∧
    0 ≤ calcConfidence individual ensemble ∧
    calcConfidence individual ensemble ≤ 1 := by
  have hmax := maxList_mem_bounds hne hb
  have havg : 0 ≤ avgVariance (individual.filterMap id) := by
    apply qmean_nonneg
    intro x hx
    rcases List.mem_map.mp hx with ⟨j, _, rfl⟩
    exact qvar_nonneg _
  unfold calcConfidence
  rw [if_neg hne]
  by_cases hlen : 1 < (individual.filterMap id).length
  · rw [if_pos hlen]
    have hfac : (0:ℚ) < 1 + avgVariance (individual.filterMap id) := by linarith
    refine ⟨fun h => absurd hlen (by omega), fun _ => rfl, ?_, min_le_right _ _⟩
    exact le_min (mul_nonneg hmax.1 (le_of_lt (div_pos one_pos hfac))) zero_le_one
  · rw [if_neg hlen]
    rw [min_eq_left hmax.2]
    exact ⟨fun _ => rfl, fun h => absurd h (by omega), hmax.1, hmax.2⟩

/-- Witness for C6: no individual distributions, ensemble `[1/2, 1/2]`:
the confidence is the peak `1/2`. -/
theorem calcConfidence_spec_witness :
    calcConfidence [] [1/2, 1/2] = 1/2 := by
  have h := (calcConfidence_spec [] [1/2, 1/2] (by simp)
    (by norm_num)).1 (by norm_num)
  rw [h]
  norm_num [maxList, max_def]

/-- Helper for C9: `_generate_base_predictions`' loop contributes nothing
for untrained models. -/
theorem foldl_applyWeightStep_untrained (w : List (String × ℚ))
    (ms : List BaseModel) (h : ∀ m ∈ ms, m.isTrained = false) :
    ∀ acc, ms.foldl (applyWeightStep w) acc = acc := by
  induction ms with
  | nil => intro acc; rfl
  | cons m rest ih =>
    intro acc
    rw [List.foldl_cons]
    have hm : applyWeightStep w acc m = acc := by
      unfold applyWeightStep
      rw [h m (List.mem_cons_self m rest)]
      rfl
    rw [hm]
    exact ih (fun x hx => h x (List.mem_cons_of_mem m hx)) acc

/-- Claim C9: with zero trained base models the stacked-feature record is
empty, and `predict_proba` on a trained meta-learner then raises the
empty-record error (`"No valid predictions from base models"`, the spec's
`DataError`) instead of producing a distribution. -/
theorem metaLearner_empty_record_raises (L : MetaLearner)
    (hT : L.isTrained = true)
    (hAll : ∀ m ∈ L.baseModels, m.isTrained = false) :
    generateBasePredictions L = [] ∧
    predictProba L = Except.error PredictionError.dataError := by
  have hgen : generateBasePredictions L = [] :=
    foldl_applyWeightStep_untrained L.modelWeights L.baseModels hAll []
  refine ⟨hgen, ?_⟩
  unfold predictProba
  rw [hT, hgen]
  rfl

/-- A trained meta-learner over a single untrained base model. -/
def witnessML : MetaLearner :=
  { isTrained := true,
    baseModels := [{ name := "lstm", isTrained := false,
                     probaRow := [1/2, 1/4, 1/4], classPred := 0 }],
    modelWeights := [("lstm", 1)],
    metadataWeights := [("lstm", 1)],
    metaModel := fun _ => [] }

/-- Witness for C9. -/
theorem metaLearner_empty_record_raises_witness :
    predictProba witnessML = Except.error PredictionError.dataError :=
  (metaLearner_empty_record_raises witnessML rfl (by simp [witnessML])).2

/-! ### Frame lemmas for `update_weights` -/

theorem map_fst_setWeight (w : List (String × ℚ)) (k : String) (v : ℚ) :
    (w.map (fun p => if p.1 = k then (p.1, v) else p)).map Prod.fst
      = w.map Prod.fst := by
  induction w with
  | nil => rfl
  | cons p ps ih =>
    simp only [List.map_cons, ih]
    by_cases hp : p.1 = k
    · rw [if_pos hp]
    · rw [if_neg hp]

theorem lookupW_setWeight_ne (w : List (String × ℚ)) (k : String) (v : ℚ)
    (n : String) (hn : n ≠ k) :
    lookupW (w.map (fun p => if p.1 = k then (p.1, v) else p)) n
      = lookupW w n := by
  induction w with
  | nil => rfl
  | cons p ps ih =>
    simp only [List.map_cons]
    by_cases hp : p.1 = k
    · rw [if_pos hp]
      have hpn : ¬ p.1 = n := fun h => hn ((h.symm.trans hp))
      unfold lookupW
      rw [if_neg hpn, if_neg hpn]
      exact ih
    · rw [if_neg hp]
      unfold lookupW
      by_cases hpn : p.1 = n
      · rw [if_pos hpn, if_pos hpn]
      · rw [if_neg hpn, if_neg hpn]
        exact ih

theorem updateWeightsList_map_fst (new : List (String × ℚ)) :
    ∀ w, (updateWeightsList w new).map Prod.fst = w.map Prod.fst := by
  induction new with
  | nil => intro w; rfl
  | cons kv rest ih =>
    intro w
    unfold updateWeightsList
    by_cases h : (lookupW w kv.1).isSome
    · rw [if_pos h, ih, map_fst_setWeight]
    · rw [if_neg h, ih]

theorem updateWeightsList_lookup_unmentioned (new : List (String × ℚ)) :
    ∀ w n, n ∉ new.map Prod.fst →
      lookupW (updateWeightsList w new) n = lookupW w n := by
  induction new with
  | nil => intro w n _; rfl
  | cons kv rest ih =>
    intro w n hn
    simp only [List.map_cons, List.mem_cons] at hn
    push_neg at hn
    unfold updateWeightsList
    by_cases h : (lookupW w kv.1).isSome
    · rw [if_pos h, ih _ _ hn.2, lookupW_setWeight_ne _ _ _ _ hn.1]
    · rw [if_neg h, ih _ _ hn.2]

theorem lookupW_eq_none_iff (w : List (String × ℚ)) (n : String) :
    lookupW w n = none ↔ n ∉ w.map Prod.fst := by
  induction w with
  | nil => simp [lookupW]
  | cons p ps ih =>
    simp only [lookupW, List.map_cons, List.mem_cons]
    by_cases hp : p.1 = n
    · rw [if_pos hp]
      simp [hp]
    · rw [if_neg hp]
      simp [ih, Ne.symm hp]

/-- Claim C10: `update_weights` never changes which adapters are
registered: the base-model list is untouched, the set (indeed the ordered
list) of registered weight names is unchanged, the weight of every name
not mentioned in the request is unchanged, and names absent from the
registry stay absent. -/
theorem updateWeights_frame (L : MetaLearner) (new : List (String × ℚ)) :
    (updateWeights L new).baseModels = L.baseModels ∧
    (updateWeights L new).modelWeights.map Prod.fst
      = L.modelWeights.map Prod.fst ∧
    (∀ n, n ∉ new.map Prod.fst →
      lookupW (updateWeights L new).modelWeights n
        = lookupW L.modelWeights n) ∧
    (∀ n, lookupW L.modelWeights n = none →
      lookupW (updateWeights L new).modelWeights n = none) := by
  refine ⟨rfl, updateWeightsList_map_fst new L.modelWeights,
    fun n hn => updateWeightsList_lookup_unmentioned new L.modelWeights n hn, ?_⟩
  intro n hn
  rw [lookupW_eq_none_iff] at hn ⊢
  rw [show (updateWeights L new).modelWeights
        = updateWeightsList L.modelWeights new from rfl,
      updateWeightsList_map_fst]
  exact hn

/-- A meta-learner with two registered weights, for the C10 witness. -/
def weightsML : MetaLearner :=
  { isTrained := false, baseModels := [],
    modelWeights := [("lstm", 1), ("xgboost", 2)],
    metadataWeights := [("lstm", 1), ("xgboost", 2)],
    metaModel := fun _ => [] }

/-- Witness for C10: updating `xgboost` and the unregistered `ghost`
leaves `lstm`'s weight and the key list unchanged. -/
theorem updateWeights_frame_witness :
    lookupW (updateWeights weightsML [("xgboost", 5), ("ghost", 7)]).modelWeights
        "lstm" = lookupW weightsML.modelWeights "lstm" ∧
    (updateWeights weightsML [("xgboost", 5), ("ghost", 7)]).modelWeights.map
        Prod.fst = weightsML.modelWeights.map Prod.fst :=
  ⟨(updateWeights_frame weightsML [("xgboost", 5), ("ghost", 7)]).2.2.1 "lstm"
      (by decide),
   (updateWeights_frame weightsML [("xgboost", 5), ("ghost", 7)]).2.1⟩

/-! ### Characterization of `_identify_value_bets` -/

theorem candidateValueBet_fields {qs : List Quote} {name : String}
    {mp ip : ℚ} {b : ValueBet}
    (h : candidateValueBet qs name mp ip = some b) :
    b.outcome = name ∧
    b.expected_value = b.model_probability * b.best_odds - 1 := by
  unfold candidateValueBet at h
  by_cases h1 : ip < mp
  · rw [if_pos h1] at h
    cases hbq : bestBy (fun q => q.odds) qs with
    | none => rw [hbq] at h; exact absurd h (by simp)
    | some best =>
      rw [hbq] at h
      dsimp only at h
      by_cases h2 : 1/20 < mp * best.odds - 1
      · rw [if_pos h2] at h
        injection h with h
        subst h
        exact ⟨rfl, rfl⟩
      · rw [if_neg h2] at h; exact absurd h (by simp)
  · rw [if_neg h1] at h; exact absurd h (by simp)

theorem candidateValueBet_some_iff (qs : List Quote) (name : String)
    (mp ip : ℚ) :
    (∃ b, candidateValueBet qs name mp ip = some b) ↔
      (∃ q, bestBy (fun q => q.odds) qs = some q ∧ ip < mp ∧
        1/20 < mp * q.odds - 1) := by
  unfold candidateValueBet
  by_cases h1 : ip < mp
  · rw [if_pos h1]
    cases hbq : bestBy (fun q => q.odds) qs with
    | none => simp
    | some best =>
      dsimp only
      by_cases h2 : 1/20 < mp * best.odds - 1
      · rw [if_pos h2]
        constructor
        · intro _; exact ⟨best, rfl, h1, h2⟩
        · intro _; exact ⟨_, rfl⟩
      · rw [if_neg h2]
        constructor
        · rintro ⟨b, hb⟩; exact absurd hb (by simp)
        · rintro ⟨q, hq, _, hth⟩
          injection hq with hq
          subst hq
          exact absurd hth h2
  · rw [if_neg h1]
    simp [h1]

theorem candidateValueBet_some_iff_best (qs : List Quote) (name : String)
    (mp ip : ℚ) :
    (∃ b, candidateValueBet qs name mp ip = some b) ↔
      (∃ q, bestBy (fun q => q.odds) qs = some q ∧ q ∈ qs ∧
        (∀ r ∈ qs, r.odds ≤ q.odds) ∧ ip < mp ∧ 1/20 < mp * q.odds - 1) := by
  rw [candidateValueBet_some_iff]
  constructor
  · rintro ⟨q, hq, hlt, hth⟩
    obtain ⟨hmem, hmax⟩ := bestBy_spec (fun q => q.odds) qs q hq
    exact ⟨q, hq, hmem, hmax, hlt, hth⟩
  · rintro ⟨q, hq, _, _, hlt, hth⟩
    exact ⟨q, hq, hlt, hth⟩

theorem mem_identifyValueBets (os : OddsSummary) (implied : ImpliedH2H)
    (m : ModelProbs) (b : ValueBet) :
    b ∈ identifyValueBets os implied m ↔
      candidateValueBet os.h2h.home "home" m.home implied.home = some b ∨
      candidateValueBet os.h2h.away "away" m.away implied.away = some b ∨
      candidateValueBet os.h2h.draw "draw" m.draw implied.draw = some b := by
  unfold identifyValueBets
  rw [mem_sortByDesc]
  simp [List.mem_filterMap, eq_comm]

/-- Claim C5: an outcome with at least one quote is surfaced as a value bet
iff the model probability exceeds the market implied probability and the
expected value at the best (highest) quoted price exceeds the 0.05
threshold; each surfaced entry records that expected value, and the
returned list is sorted descending by expected value. -/
theorem identifyValueBets_spec (os : OddsSummary) (implied : ImpliedH2H)
    (m : ModelProbs) :
    ((∃ b ∈ identifyValueBets os implied m, b.outcome = "home") ↔
      (∃ q, bestBy (fun q => q.odds) os.h2h.home = some q ∧
        q ∈ os.h2h.home ∧ (∀ r ∈ os.h2h.home, r.odds ≤ q.odds) ∧
        implied.home < m.home ∧ 1/20 < m.home * q.odds - 1)) ∧
    ((∃ b ∈ identifyValueBets os implied m, b.outcome = "away") ↔
      (∃ q, bestBy (fun q => q.odds) os.h2h.away = some q ∧
        q ∈ os.h2h.away ∧ (∀ r ∈ os.h2h.away, r.odds ≤ q.odds) ∧
        implied.away < m.away ∧ 1/20 < m.away * q.odds - 1)) ∧
    ((∃ b ∈ identifyValueBets os implied m, b.outcome = "draw") ↔
      (∃ q, bestBy (fun q => q.odds) os.h2h.draw = some q ∧
        q ∈ os.h2h.draw ∧ (∀ r ∈ os.h2h.draw, r.odds ≤ q.odds) ∧
        implied.draw < m.draw ∧ 1/20 < m.draw * q.odds - 1)) ∧
    (∀ b ∈ identifyValueBets os implied m,
      b.expected_value = b.model_probability * b.best_odds - 1) ∧
    (identifyValueBets os implied m).Pairwise
      (fun a b => b.expected_value ≤ a.expected_value) := by
  refine ⟨?_, ?_, ?_, ?_, ?_⟩
  · constructor
    · rintro ⟨b, hbL, hout⟩
      rcases (mem_identifyValueBets os implied m b).mp hbL with hc | hc | hc
      · exact (candidateValueBet_some_iff_best _ _ _ _).mp ⟨b, hc⟩
      · rw [(candidateValueBet_fields hc).1] at hout
        exact absurd hout (by decide)
      · rw [(candidateValueBet_fields hc).1] at hout
        exact absurd hout (by decide)
    · intro hR
      obtain ⟨b, hb⟩ := (candidateValueBet_some_iff_best _ _ _ _).mpr hR
      exact ⟨b, (mem_identifyValueBets os implied m b).mpr (Or.inl hb),
        (candidateValueBet_fields hb).1⟩
  · constructor
    · rintro ⟨b, hbL, hout⟩
      rcases (mem_identifyValueBets os implied m b).mp hbL with hc | hc | hc
      · rw [(candidateValueBet_fields hc).1] at hout
        exact absurd hout (by decide)
      · exact (candidateValueBet_some_iff_best _ _ _ _).mp ⟨b, hc⟩
      · rw [(candidateValueBet_fields hc).1] at hout
        exact absurd hout (by decide)
    · intro hR
      obtain ⟨b, hb⟩ := (candidateValueBet_some_iff_best _ _ _ _).mpr hR
      exact ⟨b, (mem_identifyValueBets os implied m b).mpr (Or.inr (Or.inl hb)),
        (candidateValueBet_fields hb).1⟩
  · constructor
    · rintro ⟨b, hbL, hout⟩
      rcases (mem_identifyValueBets os implied m b).mp hbL with hc | hc | hc
      · rw [(candidateValueBet_fields hc).1] at hout
        exact absurd hout (by decide)
      · rw [(candidateValueBet_fields hc).1] at hout
        exact absurd hout (by decide)
      · exact (candidateValueBet_some_iff_best _ _ _ _).mp ⟨b, hc⟩
    · intro hR
      obtain ⟨b, hb⟩ := (candidateValueBet_some_iff_best _ _ _ _).mpr hR
      exact ⟨b, (mem_identifyValueBets os implied m b).mpr (Or.inr (Or.inr hb)),
        (candidateValueBet_fields hb).1⟩
  · intro b hbL
    rcases (mem_identifyValueBets os implied m b).mp hbL with hc | hc | hc <;>
      exact (candidateValueBet_fields hc).2
  · unfold identifyValueBets
    exact pairwise_sortByDesc _ _

/-- One h2h home quote at odds 2.5, the spec's value-bet example. -/
def valueWitnessOdds : OddsSummary :=
  { h2h := ⟨[⟨5/2, "bk1"⟩], [], []⟩, spreads := ⟨[], []⟩,
    totals := ⟨[], []⟩, bookmakers := ["bk1"] }

/-- Witness for C5: model probability 0.5 for home at best price 2.5
(implied 0.4) gives expected value 0.25 > 0.05, so home is surfaced. -/
theorem identifyValueBets_spec_witness :
    ∃ b ∈ identifyValueBets valueWitnessOdds ⟨2/5, 1/5, 1/5⟩ ⟨1/2, 1/4, 1/4⟩,
      b.outcome = "home" :=
  (identifyValueBets_spec valueWitnessOdds ⟨2/5, 1/5, 1/5⟩ ⟨1/2, 1/4, 1/4⟩).1.mpr
    ⟨⟨5/2, "bk1"⟩, rfl, by simp [valueWitnessOdds],
      by simp [valueWitnessOdds], by norm_num, by norm_num⟩

/-! ### Characterization of `_find_arbitrage_opportunities` -/

theorem bestBy_some_ne_nil {key : α → ℚ} {l : List α} {x : α}
    (h : bestBy key l = some x) : l ≠ [] := by
  intro hl
  subst hl
  simp [bestBy] at h

theorem mem_findArbitrageOpportunities (os : OddsSummary) (o : ArbOpp) :
    o ∈ findArbitrageOpportunities os ↔
      o ∈ h2hArbOpps os ∨ o ∈ spreadsArbOpps os := by
  unfold findArbitrageOpportunities
  rw [mem_sortByDesc, List.mem_append]

theorem h2hArbOpps_spec (os : OddsSummary) :
    (h2hArbOpps os ≠ [] ↔ (∃ S, h2hInvSum os = some S ∧ S < 1)) ∧
    (∀ o ∈ h2hArbOpps os, o.market = "h2h" ∧
      ∀ S, h2hInvSum os = some S → o.profit_margin = (1 - S) * 100) := by
  unfold h2hArbOpps h2hInvSum
  cases hh : bestBy (fun q => q.odds) os.h2h.home with
  | none => simp
  | some bh =>
    cases ha : bestBy (fun q => q.odds) os.h2h.away with
    | none => simp
    | some ba =>
      cases hd : bestBy (fun q => q.odds) os.h2h.draw with
      | none => simp
      | some bd =>
        dsimp only
        by_cases hS : 1 / bh.odds + 1 / ba.odds + 1 / bd.odds < 1
        · rw [if_pos hS]
          refine ⟨⟨fun _ => ⟨_, rfl, hS⟩, fun _ => by simp⟩, ?_⟩
          intro o ho
          rcases List.mem_singleton.mp ho with rfl
          refine ⟨rfl, ?_⟩
          intro S hSome
          injection hSome with hSome
          rw [← hSome]
        · rw [if_neg hS]
          constructor
          · refine ⟨fun h => absurd rfl h, ?_⟩
            rintro ⟨S, hSome, hlt⟩
            injection hSome with hSome
            subst hSome
            exact absurd hlt hS
          · intro o ho
            simp at ho

theorem spreadsArbOpps_spec (os : OddsSummary) :
    (spreadsArbOpps os ≠ [] ↔ (∃ S, spreadsInvSum os = some S ∧ S < 1)) ∧
    (∀ o ∈ spreadsArbOpps os, o.market = "spreads" ∧
      ∀ S, spreadsInvSum os = some S → o.profit_margin = (1 - S) * 100) := by
  unfold spreadsArbOpps spreadsInvSum
  cases hh : bestBy (fun q => q.odds) os.spreads.home with
  | none => simp
  | some bh =>
    cases ha : bestBy (fun q => q.odds) os.spreads.away with
    | none => simp
    | some ba =>
      dsimp only
      by_cases hS : 1 / bh.odds + 1 / ba.odds < 1
      · rw [if_pos hS]
        refine ⟨⟨fun _ => ⟨_, rfl, hS⟩, fun _ => by simp⟩, ?_⟩
        intro o ho
        rcases List.mem_singleton.mp ho with rfl
        refine ⟨rfl, ?_⟩
        intro S hSome
        injection hSome with hSome
        rw [← hSome]
      · rw [if_neg hS]
        constructor
        · refine ⟨fun h => absurd rfl h, ?_⟩
          rintro ⟨S, hSome, hlt⟩
          injection hSome with hSome
          subst hSome
          exact absurd hlt hS
        · intro o ho
          simp at ho

theorem h2hInvSum_isSome_iff (os : OddsSummary) :
    (∃ S, h2hInvSum os = some S) ↔
      (os.h2h.home ≠ [] ∧ os.h2h.away ≠ [] ∧ os.h2h.draw ≠ []) := by
  unfold h2hInvSum
  cases hh : bestBy (fun q => q.odds) os.h2h.home with
  | none =>
    have h0 : os.h2h.home = [] := (bestBy_eq_none_iff _ _).mp hh
    simp [h0]
  | some bh =>
    have h1 : os.h2h.home ≠ [] := bestBy_some_ne_nil hh
    cases ha : bestBy (fun q => q.odds) os.h2h.away with
    | none =>
      have h0 : os.h2h.away = [] := (bestBy_eq_none_iff _ _).mp ha
      simp [h0]
    | some ba =>
      have h2 : os.h2h.away ≠ [] := bestBy_some_ne_nil ha
      cases hd : bestBy (fun q => q.odds) os.h2h.draw with
      | none =>
        have h0 : os.h2h.draw = [] := (bestBy_eq_none_iff _ _).mp hd
        simp [h0]
      | some bd =>
        have h3 : os.h2h.draw ≠ [] := bestBy_some_ne_nil hd
        simp [h1, h2, h3]

theorem spreadsInvSum_isSome_iff (os : OddsSummary) :
    (∃ S, spreadsInvSum os = some S) ↔
      (os.spreads.home ≠ [] ∧ os.spreads.away ≠ []) := by
  unfold spreadsInvSum
  cases hh : bestBy (fun q => q.odds) os.spreads.home with
  | none =>
    have h0 : os.spreads.home = [] := (bestBy_eq_none_iff _ _).mp hh
    simp [h0]
  | some bh =>
    have h1 : os.spreads.home ≠ [] := bestBy_some_ne_nil hh
    cases ha : bestBy (fun q => q.odds) os.spreads.away with
    | none =>
      have h0 : os.spreads.away = [] := (bestBy_eq_none_iff _ _).mp ha
      simp [h0]
    | some ba =>
      have h2 : os.spreads.away ≠ [] := bestBy_some_ne_nil ha
      simp [h1, h2]

/-- Claim C2 (amended): restricted to the h2h and spreads markets — the
only markets the scan examines — an opportunity is reported iff every
outcome of the market has a quote and the best-price inverse sum `S` is
strictly below 1; each reported opportunity carries
`profit_margin = (1 - S) * 100`, and the list is sorted descending by
profit margin. -/
theorem findArbitrage_spec (os : OddsSummary) :
    ((∃ o ∈ findArbitrageOpportunities os, o.market = "h2h") ↔
      (∃ S, h2hInvSum os = some S ∧ S < 1)) ∧
    ((∃ o ∈ findArbitrageOpportunities os, o.market = "spreads") ↔
      (∃ S, spreadsInvSum os = some S ∧ S < 1)) ∧
    ((∃ S, h2hInvSum os = some S) ↔
      (os.h2h.home ≠ [] ∧ os.h2h.away ≠ [] ∧ os.h2h.draw ≠ [])) ∧
    ((∃ S, spreadsInvSum os = some S) ↔
      (os.spreads.home ≠ [] ∧ os.spreads.away ≠ [])) ∧
    (∀ o ∈ findArbitrageOpportunities os,
      o.market = "h2h" ∨ o.market = "spreads") ∧
    (∀ o ∈ findArbitrageOpportunities os, o.market = "h2h" →
      ∀ S, h2hInvSum os = some S → o.profit_margin = (1 - S) * 100) ∧
    (∀ o ∈ findArbitrageOpportunities os, o.market = "spreads" →
      ∀ S, spreadsInvSum os = some S → o.profit_margin = (1 - S) * 100) ∧
    (findArbitrageOpportunities os).Pairwise
      (fun a b => b.profit_margin ≤ a.profit_margin) := by
  refine ⟨?_, ?_, h2hInvSum_isSome_iff os, spreadsInvSum_isSome_iff os,
    ?_, ?_, ?_, ?_⟩
  · constructor
    · rintro ⟨o, hoL, hm⟩
      rcases (mem_findArbitrageOpportunities os o).mp hoL with ho | ho
      · exact (h2hArbOpps_spec os).1.mp (List.ne_nil_of_mem ho)
      · rw [((spreadsArbOpps_spec os).2 o ho).1] at hm
        exact absurd hm (by decide)
    · rintro ⟨S, hS, hlt⟩
      obtain ⟨o, ho⟩ := List.exists_mem_of_ne_nil _
        ((h2hArbOpps_spec os).1.mpr ⟨S, hS, hlt⟩)
      exact ⟨o, (mem_findArbitrageOpportunities os o).mpr (Or.inl ho),
        ((h2hArbOpps_spec os).2 o ho).1⟩
  · constructor
    · rintro ⟨o, hoL, hm⟩
      rcases (mem_findArbitrageOpportunities os o).mp hoL with ho | ho
      · rw [((h2hArbOpps_spec os).2 o ho).1] at hm
        exact absurd hm (by decide)
      · exact (spreadsArbOpps_spec os).1.mp (List.ne_nil_of_mem ho)
    · rintro ⟨S, hS, hlt⟩
      obtain ⟨o, ho⟩ := List.exists_mem_of_ne_nil _
        ((spreadsArbOpps_spec os).1.mpr ⟨S, hS, hlt⟩)
      exact ⟨o, (mem_findArbitrageOpportunities os o).mpr (Or.inr ho),
        ((spreadsArbOpps_spec os).2 o ho).1⟩
  · intro o hoL
    rcases (mem_findArbitrageOpportunities os o).mp hoL with ho | ho
    · exact Or.inl ((h2hArbOpps_spec os).2 o ho).1
    · exact Or.inr ((spreadsArbOpps_spec os).2 o ho).1
  · intro o hoL hm S hS
    rcases (mem_findArbitrageOpportunities os o).mp hoL with ho | ho
    · exact ((h2hArbOpps_spec os).2 o ho).2 S hS
    · rw [((spreadsArbOpps_spec os).2 o ho).1] at hm
      exact absurd hm (by decide)
  · intro o hoL hm S hS
    rcases (mem_findArbitrageOpportunities os o).mp hoL with ho | ho
    · rw [((h2hArbOpps_spec os).2 o ho).1] at hm
      exact absurd hm (by decide)
    · exact ((spreadsArbOpps_spec os).2 o ho).2 S hS
  · unfold findArbitrageOpportunities
    exact pairwise_sortByDesc _ _

/-- The spec's arbitrage example: best prices home 2.50, draw 3.80,
away 4.50; `S = 2/5 + 5/19 + 2/9 = 757/855 < 1`. -/
def arbWitnessOdds : OddsSummary :=
  { h2h := ⟨[⟨5/2, "b1"⟩], [⟨9/2, "b2"⟩], [⟨19/5, "b3"⟩]⟩,
    spreads := ⟨[], []⟩, totals := ⟨[], []⟩,
    bookmakers := ["b1", "b2", "b3"] }

/-- Witness for C2: the spec's arbitrage example is reported. -/
theorem findArbitrage_spec_witness :
    ∃ o ∈ findArbitrageOpportunities arbWitnessOdds, o.market = "h2h" :=
  (findArbitrage_spec arbWitnessOdds).1.mpr
    ⟨757/855, by norm_num [h2hInvSum, arbWitnessOdds, bestBy, bestStep],
      by norm_num⟩

/-- Only the totals market is quoted: over and under both at 2.1, so the
totals inverse sum is `20/21 < 1`. -/
def totalsOnlyOdds : OddsSummary :=
  { h2h := ⟨[], [], []⟩, spreads := ⟨[], []⟩,
    totals := ⟨[⟨21/10, 200, "b1"⟩], [⟨21/10, 200, "b2"⟩]⟩,
    bookmakers := ["b1", "b2"] }

/-- Counterexample to C2 as stated: the totals market has every outcome
quoted and its best-price inverse sum is below 1, yet the arbitrage scan
reports nothing — `_find_arbitrage_opportunities` never examines the
totals market. -/
theorem findArbitrage_misses_totals :
    totalsOnlyOdds.totals.over ≠ [] ∧ totalsOnlyOdds.totals.under ≠ [] ∧
    1 / (21/10 : ℚ) + 1 / (21/10 : ℚ) < 1 ∧
    findArbitrageOpportunities totalsOnlyOdds = [] := by
  refine ⟨by simp [totalsOnlyOdds], by simp [totalsOnlyOdds], by norm_num, rfl⟩

end TelePredict
